import Mathlib

/-!
Shallow embedding of the PN-Counter CRDT from `src/pncounter.rs`.

The repository source contains only `pncounter.rs`; the grow-only counter
(`GCounter`), `Dot` and the vector-clock machinery it builds on live in
sibling modules that are not part of the sources. Those parts are modelled
from the specification (section 4.1 "Monotone Counter" and section 3 "Data
Model"), which describes them precisely: a map from actor to the largest
sequence number observed (absent actors default to 0), `value` as the sum of
the stored sequence numbers, `inc`/`issue` as a pure ticket-construction step,
`apply` as a pointwise maximum, and `merge` as applying every stored
(actor, sequence) pair of the other counter.

The per-actor map is represented, as in the Rust `BTreeMap`, by an
association list strictly sorted on the actor key; entries with value 0 are
never stored (absent means 0), so the representation is canonical and
structural equality of states coincides with extensional equality of the
underlying maps. Machine integers are modelled as `Nat`/`Int`: `u64` sequence
numbers as `Nat` (overflow of per-actor sequence numbers is declared out of
scope by the spec), and the `u64 -> i64` casts and `i64` subtraction in
`PNCounter::value` with an explicit two's-complement wrap `wrap64`.

Rust methods that take `&mut self` become state-passing functions; methods
that take `&self` and return a value (such as `inc`/`dec`, which return an
`Op` without mutating) are modelled as returning the pair of the result and
the (unchanged) output state, making the absence of mutation a provable
statement rather than a modelling artifact.
-/

namespace RustCrdt

variable {A : Type} [LinearOrder A]

/-- A dot: a pair of an actor and a 64-bit sequence number
(`Dot { actor, counter }` in the source; the counter is modelled as `Nat`). -/
structure Dot (A : Type) where
  actor : A
  counter : Nat
  deriving DecidableEq

/-- Direction tag of a PN-counter operation (source: `enum Dir` with
variants `Pos` and `Neg`). -/
inductive Dir where
  | Pos
  | Neg
  deriving DecidableEq

/-- An operation produced by mutating the counter (source: `struct Op`
carrying a dot and a direction). -/
structure Op (A : Type) where
  dot : Dot A
  dir : Dir
  deriving DecidableEq

/-- Modelled from the spec: reading the per-actor map. Absent actors
default to 0 ("a mapping from actor to the largest sequence number observed
for that actor (default 0 for actors never seen)"). -/
def lookup0 : List (A × Nat) → A → Nat
  | [], _ => 0
  | e :: rest, a => if a = e.1 then e.2 else lookup0 rest a

/-- Modelled from the spec: `stored[a] = max(stored[a], c)` on the sorted
association list backing the per-actor map. A zero value is never stored,
keeping the representation canonical (absent = 0). -/
def insertMax : List (A × Nat) → A → Nat → List (A × Nat)
  | [], a, c => if c = 0 then [] else [(a, c)]
  | e :: rest, a, c =>
    if a < e.1 then (if c = 0 then e :: rest else (a, c) :: e :: rest)
    else if a = e.1 then (e.1, max e.2 c) :: rest
    else e :: insertMax rest a c

/-- Modelled from the spec: the Monotone (grow-only) Counter of section 4.1,
a per-actor map of largest observed sequence numbers. -/
structure GCounter (A : Type) where
  entries : List (A × Nat)
  deriving DecidableEq

/-- Keys of the association list are strictly increasing (the `BTreeMap`
invariant). -/
def KeysSorted (l : List (A × Nat)) : Prop :=
  l.Pairwise (fun e f => e.1 < f.1)

/-- All stored values are positive: an absent actor means 0, so 0 is never
stored and the representation is canonical. -/
def ValsPos (l : List (A × Nat)) : Prop :=
  ∀ e ∈ l, 0 < e.2

/-- Well-formedness of a grow-only counter state: exactly the states the
Rust `BTreeMap`-backed `GCounter` can represent. -/
def GCounter.WF (g : GCounter A) : Prop :=
  KeysSorted g.entries ∧ ValsPos g.entries

/-- Modelled from the spec: `new()` is the empty counter. -/
def GCounter.new : GCounter A := ⟨[]⟩

/-- Modelled from the spec: `value()` is the sum of all stored per-actor
sequence numbers. -/
def GCounter.value (g : GCounter A) : Nat :=
  (g.entries.map Prod.snd).sum

/-- Modelled from the spec: `issue`/`inc` computes
`next = stored_sequence_number(actor) + 1` and returns `Dot(actor, next)`
without mutating local state. -/
def GCounter.inc (g : GCounter A) (a : A) : Dot A :=
  ⟨a, lookup0 g.entries a + 1⟩

/-- Modelled from the spec: `apply(dot)` sets
`stored[dot.actor] = max(stored[dot.actor], dot.counter)`. -/
def GCounter.applyDot (g : GCounter A) (d : Dot A) : GCounter A :=
  ⟨insertMax g.entries d.actor d.counter⟩

/-- Modelled from the spec: `merge(other)` takes the pointwise per-actor
maximum, realised (as the spec notes is equivalent) by applying the dot
`(actor, other.stored[actor])` for every actor stored in `other`. -/
def GCounter.merge (g other : GCounter A) : GCounter A :=
  other.entries.foldl (fun acc e => acc.applyDot ⟨e.1, e.2⟩) g

/-- The PN-counter: a pair of grow-only counters, `p` for increments and
`n` for decrements (source: `struct PNCounter { p, n }`). -/
structure PNCounter (A : Type) where
  p : GCounter A
  n : GCounter A
  deriving DecidableEq

/-- Well-formedness of a PN-counter state: both components well-formed. -/
def PNCounter.WF (s : PNCounter A) : Prop :=
  s.p.WF ∧ s.n.WF

instance (l : List (A × Nat)) : Decidable (KeysSorted l) :=
  inferInstanceAs (Decidable (l.Pairwise fun (e f : A × Nat) => e.1 < f.1))

instance (l : List (A × Nat)) : Decidable (ValsPos l) :=
  inferInstanceAs (Decidable (∀ e ∈ l, 0 < e.2))

instance (g : GCounter A) : Decidable g.WF :=
  inferInstanceAs (Decidable (KeysSorted g.entries ∧ ValsPos g.entries))

instance (s : PNCounter A) : Decidable s.WF :=
  inferInstanceAs (Decidable (s.p.WF ∧ s.n.WF))

/-- Source `PNCounter::new()`: both components empty. -/
def PNCounter.new : PNCounter A :=
  ⟨GCounter.new, GCounter.new⟩

/-- Two's-complement interpretation of an integer modulo 2^64: the value of
the 64-bit pattern an `i64` would hold. `u64 -> i64` casts (`as i64`) and
wrapping `i64` arithmetic both land in this function. -/
def wrap64 (z : Int) : Int :=
  (z + 2 ^ 63) % 2 ^ 64 - 2 ^ 63

/-- Source `PNCounter::value()`: `self.p.value() as i64 - self.n.value() as i64`.
Each `u64` total is cast to `i64` with a wrapping cast and the subtraction is
64-bit (wrapping) integer subtraction. -/
def PNCounter.value (s : PNCounter A) : Int :=
  wrap64 (wrap64 (s.p.value : Int) - wrap64 (s.n.value : Int))

/-- Source `PNCounter::inc(&self, actor)`: returns
`Op { dot: self.p.inc(actor), dir: Pos }`. The `&self` receiver is modelled
by returning the output state alongside the operation. -/
def PNCounter.inc (s : PNCounter A) (a : A) : Op A × PNCounter A :=
  (⟨s.p.inc a, Dir.Pos⟩, s)

/-- Source `PNCounter::dec(&self, actor)`: returns
`Op { dot: self.n.inc(actor), dir: Neg }`. -/
def PNCounter.dec (s : PNCounter A) (a : A) : Op A × PNCounter A :=
  (⟨s.n.inc a, Dir.Neg⟩, s)

/-- Source `CmRDT::apply for PNCounter`: dispatch on the direction tag,
routing the dot to `p` for `Pos` and to `n` for `Neg`. -/
def PNCounter.applyOp (s : PNCounter A) (op : Op A) : PNCounter A :=
  match op.dir with
  | Dir.Pos => ⟨s.p.applyDot op.dot, s.n⟩
  | Dir.Neg => ⟨s.p, s.n.applyDot op.dot⟩

/-- Source `CvRDT::merge for PNCounter`: merge the components pairwise. -/
def PNCounter.merge (s other : PNCounter A) : PNCounter A :=
  ⟨s.p.merge other.p, s.n.merge other.n⟩

/-- Source `Ord for PNCounter`: compare the derived values. -/
def PNCounter.cmp (s t : PNCounter A) : Ordering :=
  compare s.value t.value

/-- Source `PartialEq for PNCounter`: equality of the derived values. -/
def PNCounter.beq (s t : PNCounter A) : Bool :=
  s.value == t.value

/-- Rust `<` via `PartialOrd`, which delegates to `Ord::cmp`:
`a < b` iff `cmp(a, b) == Less`. -/
def PNCounter.ltb (s t : PNCounter A) : Bool :=
  s.cmp t == Ordering.lt

/-- Modelled from the spec / the `derive(Hash)` on `PNCounter`: the derived
hash feeds the structural content of the `p` and `n` fields to the hasher,
so the hasher input is the pair of underlying association lists. Two states
whose hash inputs differ hash differently (for a collision-free hasher). -/
def PNCounter.hashInput (s : PNCounter A) : List (A × Nat) × List (A × Nat) :=
  (s.p.entries, s.n.entries)

/-- Apply a list of operations in order (a replica consuming a stream of
shipped operations). -/
def PNCounter.applyOps (s : PNCounter A) (l : List (Op A)) : PNCounter A :=
  l.foldl PNCounter.applyOp s

/-- Merge a list of replica states into a fresh counter, in order (the
shape of the `prop_merge_converges` test). -/
def mergeList (l : List (PNCounter A)) : PNCounter A :=
  l.foldl PNCounter.merge PNCounter.new

/-- One step of the sequential issue-then-apply usage pattern: issue an
increment (`Dir.Pos`) or decrement (`Dir.Neg`) for the given actor and
immediately apply the returned operation. -/
def PNCounter.step (s : PNCounter A) : A × Dir → PNCounter A
  | (a, Dir.Pos) => ((s.inc a).2).applyOp (s.inc a).1
  | (a, Dir.Neg) => ((s.dec a).2).applyOp (s.dec a).1

/-- Run a sequential script of increments and decrements, each operation
issued and applied before the next is issued. -/
def PNCounter.run (s : PNCounter A) (l : List (A × Dir)) : PNCounter A :=
  l.foldl PNCounter.step s

/-- Number of increment instructions in a script. -/
def posCount (l : List (A × Dir)) : Nat :=
  (l.filter (fun e => e.2 = Dir.Pos)).length

/-- Number of decrement instructions in a script. -/
def negCount (l : List (A × Dir)) : Nat :=
  (l.filter (fun e => e.2 = Dir.Neg)).length

/-- Largest sequence number carried by any operation with the given
direction tag and actor in a list of operations (0 if none): the net
per-actor effect of applying the list. -/
def dirMax (dd : Dir) : List (Op A) → A → Nat
  | [], _ => 0
  | op :: rest, x =>
    if op.dir = dd ∧ op.dot.actor = x then max op.dot.counter (dirMax dd rest x)
    else dirMax dd rest x

/-- Maximum of a list of natural numbers (0 for the empty list). -/
def natMaxList (l : List Nat) : Nat :=
  l.foldr max 0

/-- A sample well-formed counter state over actor type ℕ, used to
instantiate theorems at concrete inputs. -/
def sampleA : PNCounter Nat := ⟨⟨[(0, 2)]⟩, ⟨[(1, 1)]⟩⟩

/-- A second sample state: two increment actors, no decrements. -/
def sampleB : PNCounter Nat := ⟨⟨[(0, 1), (1, 4)]⟩, ⟨[]⟩⟩

/-- A third sample state: decrements only. -/
def sampleC : PNCounter Nat := ⟨⟨[]⟩, ⟨[(0, 3)]⟩⟩

/-! ### Lemmas about the association-list map -/

theorem lookup0_eq_zero {l : List (A × Nat)} {a : A}
    (h : a ∉ l.map Prod.fst) : lookup0 l a = 0 := by
  induction l with
  | nil => rfl
  | cons e rest ih =>
      simp only [List.map_cons, List.mem_cons, not_or] at h
      simp only [lookup0, if_neg h.1, ih h.2]

theorem lookup0_eq_zero_of_forall_lt {l : List (A × Nat)} {x : A}
    (h : ∀ f ∈ l, x < f.1) : lookup0 l x = 0 := by
  refine lookup0_eq_zero ?_
  intro hmem
  rcases List.mem_map.mp hmem with ⟨f, hf, hfx⟩
  exact absurd (hfx ▸ h f hf) (lt_irrefl x)

theorem lookup0_cons_self {e : A × Nat} {rest : List (A × Nat)} :
    lookup0 (e :: rest) e.1 = e.2 := by
  simp [lookup0]

theorem lookup0_tail_of_sorted {e : A × Nat} {rest : List (A × Nat)}
    (hs : KeysSorted (e :: rest)) : lookup0 rest e.1 = 0 := by
  rcases (List.pairwise_cons.mp hs) with ⟨hlt, _⟩
  exact lookup0_eq_zero_of_forall_lt hlt

theorem mem_keys_insertMax {l : List (A × Nat)} {a x : A} {c : Nat}
    (h : x ∈ (insertMax l a c).map Prod.fst) :
    x ∈ l.map Prod.fst ∨ x = a := by
  induction l with
  | nil =>
      simp only [insertMax] at h
      by_cases hc : c = 0
      · simp [hc] at h
      · simp [hc] at h; exact Or.inr h
  | cons e rest ih =>
      simp only [insertMax] at h
      by_cases h1 : a < e.1
      · simp only [if_pos h1] at h
        by_cases hc : c = 0
        · simp [hc] at h
          rcases h with h | h
          · exact Or.inl (by simp [h])
          · exact Or.inl (by simp; exact Or.inr h)
        · simp [hc] at h
          rcases h with h | h | h
          · exact Or.inr h
          · exact Or.inl (by simp [h])
          · exact Or.inl (by simp; exact Or.inr h)
      · simp only [if_neg h1] at h
        by_cases h2 : a = e.1
        · simp only [if_pos h2] at h
          simp at h
          rcases h with h | h
          · exact Or.inl (by simp [h])
          · exact Or.inl (by simp; exact Or.inr h)
        · simp only [if_neg h2] at h
          simp at h
          rcases h with h | h
          · exact Or.inl (by simp [h])
          · rcases h with ⟨v, hv⟩
            rcases ih (List.mem_map.mpr ⟨(x, v), hv, rfl⟩) with h3 | h3
            · exact Or.inl (by simp at h3 ⊢; exact Or.inr h3)
            · exact Or.inr h3

theorem keysSorted_insertMax {l : List (A × Nat)} (hs : KeysSorted l)
    (a : A) (c : Nat) : KeysSorted (insertMax l a c) := by
  induction l with
  | nil =>
      by_cases hc : c = 0 <;> simp [insertMax, hc, KeysSorted]
  | cons e rest ih =>
      rcases List.pairwise_cons.mp hs with ⟨hlt, hrest⟩
      simp only [insertMax]
      by_cases h1 : a < e.1
      · by_cases hc : c = 0
        · simpa [h1, hc] using hs
        · simp only [if_pos h1, if_neg hc]
          refine List.pairwise_cons.mpr ⟨?_, hs⟩
          intro f hf
          rcases List.mem_cons.mp hf with h | h
          · simpa [h] using h1
          · exact lt_trans h1 (hlt f h)
      · by_cases h2 : a = e.1
        · simp only [if_neg h1, if_pos h2]
          exact List.pairwise_cons.mpr ⟨hlt, hrest⟩
        · simp only [if_neg h1, if_neg h2]
          refine List.pairwise_cons.mpr ⟨?_, ih hrest⟩
          intro f hf
          rcases mem_keys_insertMax (List.mem_map_of_mem Prod.fst hf) with h | h
          · rcases List.mem_map.mp h with ⟨g, hg, hgf⟩
            exact hgf ▸ hlt g hg
          · have : e.1 < a := lt_of_le_of_ne (not_lt.mp h1) (fun he => h2 he.symm)
            exact h ▸ this

theorem valsPos_insertMax {l : List (A × Nat)} (hp : ValsPos l)
    (a : A) (c : Nat) : ValsPos (insertMax l a c) := by
  induction l with
  | nil =>
      by_cases hc : c = 0
      · simp [insertMax, hc, ValsPos]
      · simp [insertMax, hc, ValsPos]
        omega
  | cons e rest ih =>
      have hpe : 0 < e.2 := hp e (List.mem_cons_self e rest)
      have hprest : ValsPos rest := fun f hf => hp f (List.mem_cons_of_mem e hf)
      simp only [insertMax]
      by_cases h1 : a < e.1
      · by_cases hc : c = 0
        · simpa [h1, hc] using hp
        · simp only [if_pos h1, if_neg hc]
          intro f hf
          rcases List.mem_cons.mp hf with h | h
          · subst h; exact Nat.pos_of_ne_zero hc
          · exact hp f h
      · by_cases h2 : a = e.1
        · simp only [if_neg h1, if_pos h2]
          intro f hf
          rcases List.mem_cons.mp hf with h | h
          · subst h; exact lt_of_lt_of_le hpe (le_max_left _ _)
          · exact hprest f h
        · simp only [if_neg h1, if_neg h2]
          intro f hf
          rcases List.mem_cons.mp hf with h | h
          · subst h; exact hpe
          · exact ih hprest f h

theorem lookup0_insertMax {l : List (A × Nat)} (hs : KeysSorted l)
    (a : A) (c : Nat) (x : A) :
    lookup0 (insertMax l a c) x =
      if x = a then max (lookup0 l a) c else lookup0 l x := by
  induction l with
  | nil =>
      simp only [insertMax, lookup0]
      by_cases hc : c = 0
      · rw [if_pos hc]
        by_cases hx : x = a
        · simp [lookup0, hx, hc]
        · simp [lookup0, hx]
      · rw [if_neg hc]
        by_cases hx : x = a
        · simp [lookup0, hx]
        · simp [lookup0, hx]
  | cons e rest ih =>
      rcases List.pairwise_cons.mp hs with ⟨hlt, hrest⟩
      have ihr := ih hrest
      simp only [insertMax]
      rcases lt_trichotomy a e.1 with h1 | h1 | h1
      · have ha0 : lookup0 (e :: rest) a = 0 := by
          simp only [lookup0, if_neg (ne_of_lt h1)]
          exact lookup0_eq_zero_of_forall_lt (fun f hf => lt_trans h1 (hlt f hf))
        rw [if_pos h1]
        by_cases hc : c = 0
        · rw [if_pos hc]
          by_cases hx : x = a
          · simp [hx, ha0, hc]
          · rw [if_neg hx]
        · rw [if_neg hc]
          by_cases hx : x = a
          · show (if x = a then c else lookup0 (e :: rest) x) = _
            rw [if_pos hx, if_pos hx, ha0, Nat.zero_max]
          · show (if x = a then c else lookup0 (e :: rest) x) = _
            rw [if_neg hx, if_neg hx]
      · have hea : ¬a < e.1 := by rw [h1]; exact lt_irrefl e.1
        rw [if_neg hea, if_pos h1]
        have hsa : lookup0 (e :: rest) a = e.2 := by
          simp only [lookup0, if_pos h1]
        rw [hsa]
        by_cases hx : x = a
        · have hxe : x = e.1 := hx.trans h1
          show (if x = e.1 then max e.2 c else lookup0 rest x) = _
          rw [if_pos hxe, if_pos hx]
        · have hxe : x ≠ e.1 := fun hh => hx (hh.trans h1.symm)
          show (if x = e.1 then max e.2 c else lookup0 rest x) = _
          rw [if_neg hxe, if_neg hx]
          simp only [lookup0, if_neg hxe]
      · rw [if_neg (not_lt.mpr (le_of_lt h1)), if_neg (ne_of_gt h1)]
        have hne : a ≠ e.1 := ne_of_gt h1
        by_cases hx : x = a
        · have hxe : x ≠ e.1 := by rw [hx]; exact hne
          show (if x = e.1 then e.2 else lookup0 (insertMax rest a c) x) = _
          rw [if_neg hxe, ihr, if_pos hx, if_pos hx]
          simp only [lookup0, if_neg hne]
        · show (if x = e.1 then e.2 else lookup0 (insertMax rest a c) x) = _
          rw [if_neg hx]
          simp only [lookup0]
          by_cases hxe : x = e.1
          · rw [if_pos hxe, if_pos hxe]
          · rw [if_neg hxe, if_neg hxe, ihr, if_neg hx]

theorem entries_ext {l1 : List (A × Nat)} (h1 : KeysSorted l1) (p1 : ValsPos l1) :
    ∀ {l2 : List (A × Nat)}, KeysSorted l2 → ValsPos l2 →
      (∀ x, lookup0 l1 x = lookup0 l2 x) → l1 = l2 := by
  induction l1 with
  | nil =>
      intro l2 h2 p2 h
      cases l2 with
      | nil => rfl
      | cons f t2 =>
          have := h f.1
          rw [lookup0_cons_self] at this
          exact absurd this.symm (Nat.ne_of_gt (p2 f (List.mem_cons_self f t2)))
  | cons e t1 ih =>
      intro l2 h2 p2 h
      cases l2 with
      | nil =>
          have := h e.1
          rw [lookup0_cons_self] at this
          exact absurd this (Nat.ne_of_gt (p1 e (List.mem_cons_self e t1)))
      | cons f t2 =>
          rcases List.pairwise_cons.mp h1 with ⟨hlt1, ht1⟩
          rcases List.pairwise_cons.mp h2 with ⟨hlt2, ht2⟩
          have pt1 : ValsPos t1 := fun g hg => p1 g (List.mem_cons_of_mem e hg)
          have pt2 : ValsPos t2 := fun g hg => p2 g (List.mem_cons_of_mem f hg)
          have hkey : e.1 = f.1 := by
            rcases lt_trichotomy e.1 f.1 with hef | hef | hef
            · exfalso
              have he := h e.1
              rw [lookup0_cons_self] at he
              have : lookup0 (f :: t2) e.1 = 0 := by
                simp only [lookup0, if_neg (ne_of_lt hef)]
                exact lookup0_eq_zero_of_forall_lt
                  (fun g hg => lt_trans hef (hlt2 g hg))
              rw [this] at he
              exact absurd he (Nat.ne_of_gt (p1 e (List.mem_cons_self e t1)))
            · exact hef
            · exfalso
              have hf := h f.1
              rw [lookup0_cons_self] at hf
              have : lookup0 (e :: t1) f.1 = 0 := by
                simp only [lookup0, if_neg (ne_of_lt hef)]
                exact lookup0_eq_zero_of_forall_lt
                  (fun g hg => lt_trans hef (hlt1 g hg))
              rw [this] at hf
              exact absurd hf.symm (Nat.ne_of_gt (p2 f (List.mem_cons_self f t2)))
          have hval : e.2 = f.2 := by
            have he := h e.1
            rw [lookup0_cons_self] at he
            rw [he, hkey, lookup0_cons_self]
          have htail : ∀ x, lookup0 t1 x = lookup0 t2 x := by
            intro x
            by_cases hx : x = e.1
            · subst hx
              rw [lookup0_tail_of_sorted h1]
              rw [hkey] at *
              rw [lookup0_tail_of_sorted h2]
            · have := h x
              simp only [lookup0, if_neg hx] at this
              rw [if_neg (hkey ▸ hx)] at this
              exact this
          have := ih ht1 pt1 ht2 pt2 htail
          exact by
            cases e; cases f
            simp only at hkey hval
            simp [hkey, hval, this]

/-! ### Lemmas about the grow-only counter -/

theorem GCounter.wf_applyDot {g : GCounter A} (h : g.WF) (d : Dot A) :
    (g.applyDot d).WF :=
  ⟨keysSorted_insertMax h.1 d.actor d.counter,
   valsPos_insertMax h.2 d.actor d.counter⟩

theorem GCounter.lookup0_applyDot {g : GCounter A} (h : KeysSorted g.entries)
    (d : Dot A) (x : A) :
    lookup0 (g.applyDot d).entries x =
      if x = d.actor then max (lookup0 g.entries d.actor) d.counter
      else lookup0 g.entries x :=
  lookup0_insertMax h d.actor d.counter x

theorem foldl_applyDot_wf (l : List (A × Nat)) :
    ∀ g : GCounter A, g.WF →
      (l.foldl (fun acc e => acc.applyDot ⟨e.1, e.2⟩) g).WF := by
  induction l with
  | nil => intro g hg; exact hg
  | cons e t ih =>
      intro g hg
      exact ih (g.applyDot ⟨e.1, e.2⟩) (GCounter.wf_applyDot hg _)

theorem GCounter.wf_merge_gc {g h : GCounter A} (hg : g.WF) : (g.merge h).WF :=
  foldl_applyDot_wf h.entries g hg

theorem lookup0_foldl_applyDot (l2 : List (A × Nat)) :
    ∀ g : GCounter A, KeysSorted g.entries → KeysSorted l2 → ∀ x,
      lookup0 (l2.foldl (fun acc e => acc.applyDot ⟨e.1, e.2⟩) g).entries x
        = max (lookup0 g.entries x) (lookup0 l2 x) := by
  induction l2 with
  | nil =>
      intro g hg _ x
      simp [lookup0]
  | cons e t ih =>
      intro g hg hs x
      rcases List.pairwise_cons.mp hs with ⟨hlt, ht⟩
      have hg' : KeysSorted (g.applyDot ⟨e.1, e.2⟩).entries :=
        keysSorted_insertMax hg e.1 e.2
      have step := ih (g.applyDot ⟨e.1, e.2⟩) hg' ht x
      simp only [List.foldl_cons]
      rw [step, GCounter.lookup0_applyDot hg]
      by_cases hx : x = e.1
      · subst hx
        rw [if_pos rfl, lookup0_tail_of_sorted hs, Nat.max_zero,
          lookup0_cons_self]
      · rw [if_neg hx]
        simp only [lookup0, if_neg hx]

theorem GCounter.lookup0_merge {g h : GCounter A}
    (hg : KeysSorted g.entries) (hh : KeysSorted h.entries) (x : A) :
    lookup0 (g.merge h).entries x =
      max (lookup0 g.entries x) (lookup0 h.entries x) :=
  lookup0_foldl_applyDot h.entries g hg hh x

theorem GCounter.extLookup {g h : GCounter A} (hg : g.WF) (hh : h.WF)
    (he : ∀ x, lookup0 g.entries x = lookup0 h.entries x) : g = h := by
  cases g with
  | mk ge =>
      cases h with
      | mk he' =>
          have := entries_ext hg.1 hg.2 hh.1 hh.2 he
          simp only at this
          rw [this]

theorem sum_insertMax {l : List (A × Nat)} (hs : KeysSorted l) (a : A) (c : Nat) :
    ((insertMax l a c).map Prod.snd).sum + lookup0 l a
      = (l.map Prod.snd).sum + max (lookup0 l a) c := by
  induction l with
  | nil =>
      by_cases hc : c = 0
      · simp [insertMax, hc, lookup0]
      · simp [insertMax, hc, lookup0]
  | cons e rest ih =>
      rcases List.pairwise_cons.mp hs with ⟨hlt, hrest⟩
      have ihr := ih hrest
      simp only [insertMax]
      rcases lt_trichotomy a e.1 with h1 | h1 | h1
      · have ha0 : lookup0 (e :: rest) a = 0 := by
          simp only [lookup0, if_neg (ne_of_lt h1)]
          exact lookup0_eq_zero_of_forall_lt (fun f hf => lt_trans h1 (hlt f hf))
        rw [if_pos h1, ha0]
        by_cases hc : c = 0
        · rw [if_pos hc, hc]
          simp
        · rw [if_neg hc]
          simp only [List.map_cons, List.sum_cons, Nat.zero_max]
          omega
      · have hea : ¬a < e.1 := by rw [h1]; exact lt_irrefl e.1
        have hsa : lookup0 (e :: rest) a = e.2 := by
          simp only [lookup0, if_pos h1]
        rw [if_neg hea, if_pos h1, hsa]
        simp only [List.map_cons, List.sum_cons]
        omega
      · have hne : a ≠ e.1 := ne_of_gt h1
        have hsa : lookup0 (e :: rest) a = lookup0 rest a := by
          simp only [lookup0, if_neg hne]
        rw [if_neg (not_lt.mpr (le_of_lt h1)), if_neg hne, hsa]
        simp only [List.map_cons, List.sum_cons]
        omega

theorem GCounter.value_applyDot_inc {g : GCounter A}
    (h : KeysSorted g.entries) (a : A) :
    (g.applyDot (g.inc a)).value = g.value + 1 := by
  have := sum_insertMax h a (lookup0 g.entries a + 1)
  rw [Nat.max_eq_right (Nat.le_succ _)] at this
  simp only [GCounter.value, GCounter.applyDot, GCounter.inc]
  omega

theorem GCounter.wf_new_gc : (GCounter.new : GCounter A).WF :=
  ⟨List.Pairwise.nil, fun _ h => absurd h (List.not_mem_nil _)⟩

theorem PNCounter.wf_new_pn : (PNCounter.new : PNCounter A).WF :=
  ⟨GCounter.wf_new_gc, GCounter.wf_new_gc⟩

/-! ### Two's-complement arithmetic lemmas -/

theorem wrap64_eq_self {z : Int} (h1 : -(2 ^ 63) ≤ z) (h2 : z < 2 ^ 63) :
    wrap64 z = z := by
  unfold wrap64
  rw [Int.emod_eq_of_lt (by omega) (by omega)]
  omega

theorem wrap64_dvd_sub_self (z : Int) : (2 ^ 64 : Int) ∣ wrap64 z - z := by
  unfold wrap64
  have : (z + 2 ^ 63) % 2 ^ 64 - 2 ^ 63 - z
      = (z + 2 ^ 63) % 2 ^ 64 - (z + 2 ^ 63) := by ring
  rw [this, Int.emod_def]
  exact ⟨-((z + 2 ^ 63) / 2 ^ 64), by ring⟩

theorem wrap64_congr {x y : Int} (h : (2 ^ 64 : Int) ∣ x - y) :
    wrap64 x = wrap64 y := by
  unfold wrap64
  have hxy : x ≡ y [ZMOD (2 ^ 64 : Int)] := (Int.modEq_iff_dvd.mpr h).symm
  have hmod : (x + 2 ^ 63) % 2 ^ 64 = (y + 2 ^ 63) % 2 ^ 64 :=
    Int.ModEq.add_right _ hxy
  rw [hmod]

theorem wrap64_sub_wrap64 (x y : Int) :
    wrap64 (wrap64 x - wrap64 y) = wrap64 (x - y) := by
  refine wrap64_congr ?_
  have hx := wrap64_dvd_sub_self x
  have hy := wrap64_dvd_sub_self y
  have : wrap64 x - wrap64 y - (x - y) = (wrap64 x - x) - (wrap64 y - y) := by
    ring
  rw [this]
  exact dvd_sub hx hy

/-! ### Lemmas about the PN-counter -/

theorem GCounter.merge_comm {g h : GCounter A} (hg : g.WF) (hh : h.WF) :
    g.merge h = h.merge g := by
  refine GCounter.extLookup (GCounter.wf_merge_gc hg) (GCounter.wf_merge_gc hh) ?_
  intro x
  rw [GCounter.lookup0_merge hg.1 hh.1, GCounter.lookup0_merge hh.1 hg.1,
    Nat.max_comm]

theorem GCounter.merge_assoc {g h k : GCounter A}
    (hg : g.WF) (hh : h.WF) (hk : k.WF) :
    (g.merge h).merge k = g.merge (h.merge k) := by
  have hgh := GCounter.wf_merge_gc (h := h) hg
  have hhk := GCounter.wf_merge_gc (h := k) hh
  refine GCounter.extLookup (GCounter.wf_merge_gc hgh) (GCounter.wf_merge_gc hg) ?_
  intro x
  rw [GCounter.lookup0_merge hgh.1 hk.1, GCounter.lookup0_merge hg.1 hh.1,
    GCounter.lookup0_merge hg.1 hhk.1, GCounter.lookup0_merge hh.1 hk.1,
    Nat.max_assoc]

theorem GCounter.merge_self {g : GCounter A} (hg : g.WF) : g.merge g = g := by
  refine GCounter.extLookup (GCounter.wf_merge_gc hg) hg ?_
  intro x
  rw [GCounter.lookup0_merge hg.1 hg.1, Nat.max_self]

theorem PNCounter.wf_applyOp {s : PNCounter A} (h : s.WF) (op : Op A) :
    (s.applyOp op).WF := by
  obtain ⟨d, dir⟩ := op
  cases dir
  · exact ⟨GCounter.wf_applyDot h.1 _, h.2⟩
  · exact ⟨h.1, GCounter.wf_applyDot h.2 _⟩

theorem PNCounter.wf_merge_pn {s t : PNCounter A} (hs : s.WF) : (s.merge t).WF :=
  ⟨GCounter.wf_merge_gc hs.1, GCounter.wf_merge_gc hs.2⟩

omit [LinearOrder A] in
theorem PNCounter.extComponents {s t : PNCounter A}
    (hp : s.p = t.p) (hn : s.n = t.n) : s = t := by
  cases s
  cases t
  simp only at hp hn
  rw [hp, hn]

theorem GCounter.applyDot_idem {g : GCounter A} (hg : g.WF) (d : Dot A) :
    (g.applyDot d).applyDot d = g.applyDot d := by
  refine GCounter.extLookup
    (GCounter.wf_applyDot (GCounter.wf_applyDot hg d) d)
    (GCounter.wf_applyDot hg d) ?_
  intro x
  have h1 : KeysSorted (g.applyDot d).entries :=
    (GCounter.wf_applyDot hg d).1
  rw [GCounter.lookup0_applyDot h1, GCounter.lookup0_applyDot hg.1,
    GCounter.lookup0_applyDot hg.1]
  by_cases hx : x = d.actor
  · simp only [if_pos hx, if_pos rfl, eq_self_iff_true, if_true]
    omega
  · simp only [if_neg hx]

theorem GCounter.applyDot_comm {g : GCounter A} (hg : g.WF) (d1 d2 : Dot A) :
    (g.applyDot d1).applyDot d2 = (g.applyDot d2).applyDot d1 := by
  obtain ⟨a1, c1⟩ := d1
  obtain ⟨a2, c2⟩ := d2
  refine GCounter.extLookup
    (GCounter.wf_applyDot (GCounter.wf_applyDot hg ⟨a1, c1⟩) ⟨a2, c2⟩)
    (GCounter.wf_applyDot (GCounter.wf_applyDot hg ⟨a2, c2⟩) ⟨a1, c1⟩) ?_
  intro x
  have h1 : KeysSorted (g.applyDot ⟨a1, c1⟩).entries :=
    (GCounter.wf_applyDot hg ⟨a1, c1⟩).1
  have h2 : KeysSorted (g.applyDot ⟨a2, c2⟩).entries :=
    (GCounter.wf_applyDot hg ⟨a2, c2⟩).1
  simp only [GCounter.lookup0_applyDot h1, GCounter.lookup0_applyDot h2,
    GCounter.lookup0_applyDot hg.1]
  by_cases ha : a1 = a2
  · subst ha
    by_cases hx : x = a1
    · simp only [if_pos hx, if_pos rfl, eq_self_iff_true, if_true]
      omega
    · simp only [if_neg hx]
  · by_cases hx2 : x = a2
    · have hx1 : x ≠ a1 := by rw [hx2]; exact fun hh => ha hh.symm
      simp only [if_pos hx2, if_neg hx1,
        if_neg (show ¬a2 = a1 from fun hh => ha hh.symm),
        if_neg (show ¬a1 = a2 from ha)]
    · by_cases hx1 : x = a1
      · simp only [if_pos hx1, if_neg hx2,
          if_neg (show ¬a1 = a2 from ha)]
      · simp only [if_neg hx1, if_neg hx2]

omit [LinearOrder A] in
theorem posCount_cons_pos (a : A) (t : List (A × Dir)) :
    posCount ((a, Dir.Pos) :: t) = posCount t + 1 := by
  simp [posCount, List.filter_cons]

omit [LinearOrder A] in
theorem posCount_cons_neg (a : A) (t : List (A × Dir)) :
    posCount ((a, Dir.Neg) :: t) = posCount t := by
  simp [posCount, List.filter_cons]

omit [LinearOrder A] in
theorem negCount_cons_pos (a : A) (t : List (A × Dir)) :
    negCount ((a, Dir.Pos) :: t) = negCount t := by
  simp [negCount, List.filter_cons]

omit [LinearOrder A] in
theorem negCount_cons_neg (a : A) (t : List (A × Dir)) :
    negCount ((a, Dir.Neg) :: t) = negCount t + 1 := by
  simp [negCount, List.filter_cons]

theorem run_values (l : List (A × Dir)) :
    ∀ s : PNCounter A, s.WF →
      (s.run l).WF ∧ (s.run l).p.value = s.p.value + posCount l ∧
        (s.run l).n.value = s.n.value + negCount l := by
  induction l with
  | nil =>
      intro s hs
      refine ⟨hs, ?_, ?_⟩
      · simp [PNCounter.run, posCount]
      · simp [PNCounter.run, negCount]
  | cons e t ih =>
      intro s hs
      obtain ⟨a, d⟩ := e
      cases d
      · have hrun : s.run ((a, Dir.Pos) :: t) = (s.step (a, Dir.Pos)).run t := rfl
        have hp : (s.step (a, Dir.Pos)).p = s.p.applyDot (s.p.inc a) := rfl
        have hn : (s.step (a, Dir.Pos)).n = s.n := rfl
        have hwf : (s.step (a, Dir.Pos)).WF :=
          PNCounter.wf_applyOp hs ⟨s.p.inc a, Dir.Pos⟩
        obtain ⟨w1, w2, w3⟩ := ih _ hwf
        refine ⟨by rw [hrun]; exact w1, ?_, ?_⟩
        · rw [hrun, w2, hp, posCount_cons_pos,
            GCounter.value_applyDot_inc hs.1.1 a]
          omega
        · rw [hrun, w3, hn, negCount_cons_pos]
      · have hrun : s.run ((a, Dir.Neg) :: t) = (s.step (a, Dir.Neg)).run t := rfl
        have hp : (s.step (a, Dir.Neg)).p = s.p := rfl
        have hn : (s.step (a, Dir.Neg)).n = s.n.applyDot (s.n.inc a) := rfl
        have hwf : (s.step (a, Dir.Neg)).WF :=
          PNCounter.wf_applyOp hs ⟨s.n.inc a, Dir.Neg⟩
        obtain ⟨w1, w2, w3⟩ := ih _ hwf
        refine ⟨by rw [hrun]; exact w1, ?_, ?_⟩
        · rw [hrun, w2, hp, posCount_cons_neg]
        · rw [hrun, w3, hn, negCount_cons_neg,
            GCounter.value_applyDot_inc hs.2.1 a]
          omega

omit [LinearOrder A] in
theorem posCount_replicate_pos (a : A) (k : Nat) :
    posCount (List.replicate k (a, Dir.Pos)) = k := by
  induction k with
  | zero => rfl
  | succ m ih => rw [List.replicate_succ, posCount_cons_pos, ih]

omit [LinearOrder A] in
theorem negCount_replicate_pos (a : A) (k : Nat) :
    negCount (List.replicate k (a, Dir.Pos)) = 0 := by
  induction k with
  | zero => rfl
  | succ m ih => rw [List.replicate_succ, negCount_cons_pos, ih]

theorem PNCounter.applyOp_comm {s : PNCounter A} (hs : s.WF) (op1 op2 : Op A) :
    (s.applyOp op1).applyOp op2 = (s.applyOp op2).applyOp op1 := by
  obtain ⟨d1, dir1⟩ := op1
  obtain ⟨d2, dir2⟩ := op2
  cases dir1 <;> cases dir2
  · show (⟨(s.p.applyDot d1).applyDot d2, s.n⟩ : PNCounter A)
      = ⟨(s.p.applyDot d2).applyDot d1, s.n⟩
    rw [GCounter.applyDot_comm hs.1]
  · rfl
  · rfl
  · show (⟨s.p, (s.n.applyDot d1).applyDot d2⟩ : PNCounter A)
      = ⟨s.p, (s.n.applyDot d2).applyDot d1⟩
    rw [GCounter.applyDot_comm hs.2]

theorem dirMax_cons_same (d : Dot A) (dd : Dir) (t : List (Op A)) (x : A)
    (hx : d.actor = x) :
    dirMax dd (⟨d, dd⟩ :: t) x = max d.counter (dirMax dd t x) := by
  simp [dirMax, hx]

theorem dirMax_cons_other_actor (d : Dot A) (dd : Dir) (t : List (Op A))
    (x : A) (hx : d.actor ≠ x) :
    dirMax dd (⟨d, dd⟩ :: t) x = dirMax dd t x := by
  simp [dirMax, hx]

theorem dirMax_cons_other_dir (d : Dot A) {dd dd2 : Dir} (h : dd2 ≠ dd)
    (t : List (Op A)) (x : A) :
    dirMax dd (⟨d, dd2⟩ :: t) x = dirMax dd t x := by
  simp [dirMax, h]

theorem dirMax_le_iff (dd : Dir) (l : List (Op A)) (x : A) (k : Nat) :
    dirMax dd l x ≤ k ↔
      ∀ op ∈ l, op.dir = dd → op.dot.actor = x → op.dot.counter ≤ k := by
  induction l with
  | nil => simp [dirMax]
  | cons op t ih =>
      simp only [dirMax]
      by_cases h : op.dir = dd ∧ op.dot.actor = x
      · rw [if_pos h, Nat.max_le]
        constructor
        · rintro ⟨h1, h2⟩ op' hmem hd ha
          rcases List.mem_cons.mp hmem with rfl | hmem
          · exact h1
          · exact ih.mp h2 op' hmem hd ha
        · intro hAll
          exact ⟨hAll op (List.mem_cons_self op t) h.1 h.2,
            ih.mpr fun op' hm hd ha => hAll op' (List.mem_cons_of_mem op hm) hd ha⟩
      · rw [if_neg h]
        constructor
        · intro h2 op' hmem hd ha
          rcases List.mem_cons.mp hmem with rfl | hmem
          · exact absurd ⟨hd, ha⟩ h
          · exact ih.mp h2 op' hmem hd ha
        · intro hAll
          exact ih.mpr fun op' hm hd ha => hAll op' (List.mem_cons_of_mem op hm) hd ha

theorem dirMax_mem_le {dd : Dir} {l : List (Op A)} {x : A} {op : Op A}
    (hm : op ∈ l) (hd : op.dir = dd) (ha : op.dot.actor = x) :
    op.dot.counter ≤ dirMax dd l x :=
  (dirMax_le_iff dd l x _).mp le_rfl op hm hd ha

theorem natMaxList_cons (a : Nat) (t : List Nat) :
    natMaxList (a :: t) = max a (natMaxList t) := rfl

theorem natMaxList_le_iff {l : List Nat} {k : Nat} :
    natMaxList l ≤ k ↔ ∀ m ∈ l, m ≤ k := by
  induction l with
  | nil => simp [natMaxList]
  | cons a t ih => simp [natMaxList_cons, Nat.max_le, ih]

theorem le_natMaxList {m : Nat} {l : List Nat} (h : m ∈ l) : m ≤ natMaxList l :=
  natMaxList_le_iff.mp le_rfl m h

theorem applyOps_lookup (l : List (Op A)) :
    ∀ s : PNCounter A, s.WF →
      (s.applyOps l).WF ∧
      (∀ x, lookup0 (s.applyOps l).p.entries x
          = max (lookup0 s.p.entries x) (dirMax Dir.Pos l x)) ∧
      (∀ x, lookup0 (s.applyOps l).n.entries x
          = max (lookup0 s.n.entries x) (dirMax Dir.Neg l x)) := by
  induction l with
  | nil =>
      intro s hs
      refine ⟨hs, fun x => ?_, fun x => ?_⟩
      · simp [PNCounter.applyOps, dirMax]
      · simp [PNCounter.applyOps, dirMax]
  | cons op t ih =>
      intro s hs
      obtain ⟨d, dir⟩ := op
      have happ : s.applyOps (⟨d, dir⟩ :: t) = (s.applyOp ⟨d, dir⟩).applyOps t :=
        rfl
      have hwf := PNCounter.wf_applyOp hs ⟨d, dir⟩
      obtain ⟨w1, w2, w3⟩ := ih _ hwf
      cases dir
      · have hcp : (s.applyOp ⟨d, Dir.Pos⟩).p = s.p.applyDot d := rfl
        have hcn : (s.applyOp ⟨d, Dir.Pos⟩).n = s.n := rfl
        refine ⟨by rw [happ]; exact w1, fun x => ?_, fun x => ?_⟩
        · rw [happ, w2 x, hcp, GCounter.lookup0_applyDot hs.1.1]
          by_cases hx : x = d.actor
          · subst hx
            rw [if_pos rfl, dirMax_cons_same d Dir.Pos t _ rfl]
            omega
          · rw [if_neg hx,
              dirMax_cons_other_actor d Dir.Pos t x (fun hh => hx hh.symm)]
        · rw [happ, w3 x, hcn,
            dirMax_cons_other_dir d (fun hh => Dir.noConfusion hh) t x]
      · have hcp : (s.applyOp ⟨d, Dir.Neg⟩).p = s.p := rfl
        have hcn : (s.applyOp ⟨d, Dir.Neg⟩).n = s.n.applyDot d := rfl
        refine ⟨by rw [happ]; exact w1, fun x => ?_, fun x => ?_⟩
        · rw [happ, w2 x, hcp,
            dirMax_cons_other_dir d (fun hh => Dir.noConfusion hh) t x]
        · rw [happ, w3 x, hcn, GCounter.lookup0_applyDot hs.2.1]
          by_cases hx : x = d.actor
          · subst hx
            rw [if_pos rfl, dirMax_cons_same d Dir.Neg t _ rfl]
            omega
          · rw [if_neg hx,
              dirMax_cons_other_actor d Dir.Neg t x (fun hh => hx hh.symm)]

theorem applyOps_new_lookup (l : List (Op A)) :
    ((PNCounter.new : PNCounter A).applyOps l).WF ∧
    (∀ x, lookup0 ((PNCounter.new : PNCounter A).applyOps l).p.entries x
        = dirMax Dir.Pos l x) ∧
    (∀ x, lookup0 ((PNCounter.new : PNCounter A).applyOps l).n.entries x
        = dirMax Dir.Neg l x) := by
  obtain ⟨w1, w2, w3⟩ := applyOps_lookup l PNCounter.new PNCounter.wf_new_pn
  refine ⟨w1, fun x => ?_, fun x => ?_⟩
  · rw [w2 x]
    show max (lookup0 [] x) _ = _
    rw [show lookup0 ([] : List (A × Nat)) x = 0 from rfl, Nat.zero_max]
  · rw [w3 x]
    show max (lookup0 [] x) _ = _
    rw [show lookup0 ([] : List (A × Nat)) x = 0 from rfl, Nat.zero_max]

theorem foldl_merge_lookup (ss : List (PNCounter A)) :
    ∀ g : PNCounter A, g.WF → (∀ s ∈ ss, s.WF) →
      (ss.foldl PNCounter.merge g).WF ∧
      (∀ x, lookup0 (ss.foldl PNCounter.merge g).p.entries x
          = max (lookup0 g.p.entries x)
              (natMaxList (ss.map (fun s => lookup0 s.p.entries x)))) ∧
      (∀ x, lookup0 (ss.foldl PNCounter.merge g).n.entries x
          = max (lookup0 g.n.entries x)
              (natMaxList (ss.map (fun s => lookup0 s.n.entries x)))) := by
  induction ss with
  | nil =>
      intro g hg _
      refine ⟨hg, fun x => ?_, fun x => ?_⟩
      · simp [natMaxList]
      · simp [natMaxList]
  | cons s t ih =>
      intro g hg hall
      have hs : s.WF := hall s (List.mem_cons_self s t)
      have ht : ∀ u ∈ t, u.WF := fun u hu => hall u (List.mem_cons_of_mem s hu)
      have hgs : (g.merge s).WF := PNCounter.wf_merge_pn hg
      obtain ⟨w1, w2, w3⟩ := ih (g.merge s) hgs ht
      refine ⟨w1, fun x => ?_, fun x => ?_⟩
      · have hm : lookup0 (g.merge s).p.entries x
            = max (lookup0 g.p.entries x) (lookup0 s.p.entries x) :=
          GCounter.lookup0_merge hg.1.1 hs.1.1 x
        rw [List.foldl_cons, w2 x, hm, List.map_cons, natMaxList_cons]
        omega
      · have hm : lookup0 (g.merge s).n.entries x
            = max (lookup0 g.n.entries x) (lookup0 s.n.entries x) :=
          GCounter.lookup0_merge hg.2.1 hs.2.1 x
        rw [List.foldl_cons, w3 x, hm, List.map_cons, natMaxList_cons]
        omega

theorem mergeList_lookup (ss : List (PNCounter A)) (hall : ∀ s ∈ ss, s.WF) :
    (mergeList ss).WF ∧
    (∀ x, lookup0 (mergeList ss).p.entries x
        = natMaxList (ss.map (fun s => lookup0 s.p.entries x))) ∧
    (∀ x, lookup0 (mergeList ss).n.entries x
        = natMaxList (ss.map (fun s => lookup0 s.n.entries x))) := by
  obtain ⟨w1, w2, w3⟩ := foldl_merge_lookup ss PNCounter.new PNCounter.wf_new_pn hall
  refine ⟨w1, fun x => ?_, fun x => ?_⟩
  · show lookup0 (ss.foldl PNCounter.merge PNCounter.new).p.entries x = _
    rw [w2 x]
    show max (lookup0 [] x) _ = _
    rw [show lookup0 ([] : List (A × Nat)) x = 0 from rfl, Nat.zero_max]
  · show lookup0 (ss.foldl PNCounter.merge PNCounter.new).n.entries x = _
    rw [w3 x]
    show max (lookup0 [] x) _ = _
    rw [show lookup0 ([] : List (A × Nat)) x = 0 from rfl, Nat.zero_max]

theorem dirMax_of_cover {dd : Dir} {ops : List (Op A)}
    {replicas : List (List (Op A))}
    (hcov : ∀ op : Op A, (∃ r ∈ replicas, op ∈ r) ↔ op ∈ ops) (x : A) :
    natMaxList (replicas.map (fun r => dirMax dd r x)) = dirMax dd ops x := by
  apply Nat.le_antisymm
  · rw [natMaxList_le_iff]
    intro m hm
    rcases List.mem_map.mp hm with ⟨r, hr, rfl⟩
    rw [dirMax_le_iff]
    intro op hop hd ha
    exact dirMax_mem_le ((hcov op).mp ⟨r, hr, hop⟩) hd ha
  · rw [dirMax_le_iff]
    intro op hop hd ha
    rcases (hcov op).mpr hop with ⟨r, hr, hopr⟩
    exact le_trans (dirMax_mem_le hopr hd ha)
      (le_natMaxList (List.mem_map_of_mem _ hr))

/-! ### Claim theorems -/

/-- C1: for all well-formed counter states `a`, `b`, `c`, the PNCounter
merge (component-wise merge of the `p` and `n` grow-only counters) is a
commutative, associative, idempotent join: `merge(a,b) = merge(b,a)`,
`merge(merge(a,b),c) = merge(a,merge(b,c))` and `merge(a,a) = a`, proved as
state equalities (which imply the value-based `==` of the code). -/
theorem pncounter_merge_comm_assoc_idem (a b c : PNCounter A)
    (ha : a.WF) (hb : b.WF) (hc : c.WF) :
    a.merge b = b.merge a ∧
      (a.merge b).merge c = a.merge (b.merge c) ∧
      a.merge a = a := by
  refine ⟨?_, ?_, ?_⟩
  · exact PNCounter.extComponents (GCounter.merge_comm ha.1 hb.1)
      (GCounter.merge_comm ha.2 hb.2)
  · exact PNCounter.extComponents (GCounter.merge_assoc ha.1 hb.1 hc.1)
      (GCounter.merge_assoc ha.2 hb.2 hc.2)
  · exact PNCounter.extComponents (GCounter.merge_self ha.1)
      (GCounter.merge_self ha.2)

/-- Witness for C1 at three concrete well-formed states. -/
theorem pncounter_merge_comm_assoc_idem_witness :
    sampleA.merge sampleB = sampleB.merge sampleA ∧
      (sampleA.merge sampleB).merge sampleC
        = sampleA.merge (sampleB.merge sampleC) ∧
      sampleA.merge sampleA = sampleA :=
  pncounter_merge_comm_assoc_idem sampleA sampleB sampleC
    (by decide) (by decide) (by decide)

/-- C4: apply is idempotent (applying the same operation twice equals
applying it once, as states), and operations from different actors commute
(applying them in either order yields the same final value). -/
theorem pncounter_apply_idem_comm (s : PNCounter A) (hs : s.WF)
    (op op1 op2 : Op A) (_hne : op1.dot.actor ≠ op2.dot.actor) :
    (s.applyOp op).applyOp op = s.applyOp op ∧
      ((s.applyOp op1).applyOp op2).value
        = ((s.applyOp op2).applyOp op1).value := by
  constructor
  · obtain ⟨d, dir⟩ := op
    cases dir
    · exact PNCounter.extComponents (GCounter.applyDot_idem hs.1 d) rfl
    · exact PNCounter.extComponents rfl (GCounter.applyDot_idem hs.2 d)
  · rw [PNCounter.applyOp_comm hs op1 op2]

/-- Witness for C4 at a concrete state and operations of distinct actors. -/
theorem pncounter_apply_idem_comm_witness :
    (sampleA.applyOp ⟨⟨0, 7⟩, Dir.Pos⟩).applyOp ⟨⟨0, 7⟩, Dir.Pos⟩
        = sampleA.applyOp ⟨⟨0, 7⟩, Dir.Pos⟩ ∧
      ((sampleA.applyOp ⟨⟨0, 7⟩, Dir.Pos⟩).applyOp ⟨⟨1, 5⟩, Dir.Neg⟩).value
        = ((sampleA.applyOp ⟨⟨1, 5⟩, Dir.Neg⟩).applyOp ⟨⟨0, 7⟩, Dir.Pos⟩).value :=
  pncounter_apply_idem_comm sampleA (by decide)
    ⟨⟨0, 7⟩, Dir.Pos⟩ ⟨⟨0, 7⟩, Dir.Pos⟩ ⟨⟨1, 5⟩, Dir.Neg⟩ (by decide)

/-- C5: equality and ordering of PNCounter are defined solely by the
derived value: `a == b` iff `value(a) = value(b)` and `a < b` iff
`value(a) < value(b)`; moreover two counters with different internal
per-actor histories but equal derived totals compare equal. -/
theorem pncounter_eq_ord_by_value :
    (∀ a b : PNCounter A,
      (a.beq b = true ↔ a.value = b.value) ∧
      (a.ltb b = true ↔ a.value < b.value)) ∧
    (∃ a b : PNCounter Nat, a.WF ∧ b.WF ∧ a.p.entries ≠ b.p.entries ∧
      a.beq b = true) := by
  constructor
  · intro a b
    constructor
    · simp [PNCounter.beq]
    · show (compare a.value b.value == Ordering.lt) = true ↔ a.value < b.value
      rw [show (compare a.value b.value == Ordering.lt)
          = decide (compare a.value b.value = Ordering.lt) from by
        cases compare a.value b.value <;> rfl]
      rw [decide_eq_true_iff, compare_lt_iff_lt]
  · exact ⟨⟨⟨[(0, 1)]⟩, ⟨[]⟩⟩, ⟨⟨[(1, 1)]⟩, ⟨[]⟩⟩,
      by decide, by decide, by decide, by decide⟩

/-- C6: `inc(actor)` and `dec(actor)` do not mutate the counter (the output
state equals the input state in every field); the returned operation only
takes effect when separately applied, at which point it bumps the matching
component's total by exactly one. -/
theorem pncounter_inc_dec_no_mutation (s : PNCounter A) (a : A) (hs : s.WF) :
    (s.inc a).2 = s ∧ (s.dec a).2 = s ∧
      (((s.inc a).2).applyOp (s.inc a).1).p.value = s.p.value + 1 ∧
      (((s.dec a).2).applyOp (s.dec a).1).n.value = s.n.value + 1 := by
  refine ⟨rfl, rfl, ?_, ?_⟩
  · exact GCounter.value_applyDot_inc hs.1.1 a
  · exact GCounter.value_applyDot_inc hs.2.1 a

/-- Witness for C6 at a concrete state and actor. -/
theorem pncounter_inc_dec_no_mutation_witness :
    (sampleA.inc 0).2 = sampleA ∧ (sampleA.dec 0).2 = sampleA ∧
      (((sampleA.inc 0).2).applyOp (sampleA.inc 0).1).p.value
        = sampleA.p.value + 1 ∧
      (((sampleA.dec 0).2).applyOp (sampleA.dec 0).1).n.value
        = sampleA.n.value + 1 :=
  pncounter_inc_dec_no_mutation sampleA 0 (by decide)

/-- C7: two back-to-back `inc` (or `dec`) calls with no intervening apply
return operations carrying the same dot, whose sequence number is the
locally stored sequence number for that actor plus one. -/
theorem pncounter_issue_twice_same_dot (s : PNCounter A) (a : A) :
    (s.inc a).1.dot = ⟨a, lookup0 s.p.entries a + 1⟩ ∧
      (((s.inc a).2).inc a).1.dot = (s.inc a).1.dot ∧
      (s.dec a).1.dot = ⟨a, lookup0 s.n.entries a + 1⟩ ∧
      (((s.dec a).2).dec a).1.dot = (s.dec a).1.dot :=
  ⟨rfl, rfl, rfl, rfl⟩

/-- C8: apply dispatches by the operation's direction tag and touches only
the matching component: an Increase/`Pos` operation updates only `p` and
leaves `n` unchanged, a Decrease/`Neg` operation updates only `n` and
leaves `p` unchanged. -/
theorem pncounter_apply_dispatch (s : PNCounter A) (op : Op A) :
    (op.dir = Dir.Pos →
      (s.applyOp op).p = s.p.applyDot op.dot ∧ (s.applyOp op).n = s.n) ∧
    (op.dir = Dir.Neg →
      (s.applyOp op).n = s.n.applyDot op.dot ∧ (s.applyOp op).p = s.p) := by
  obtain ⟨d, dir⟩ := op
  cases dir
  · exact ⟨fun _ => ⟨rfl, rfl⟩, fun h => Dir.noConfusion h⟩
  · exact ⟨fun h => Dir.noConfusion h, fun _ => ⟨rfl, rfl⟩⟩

/-- Witness for C8: both directions exercised at concrete operations. -/
theorem pncounter_apply_dispatch_witness :
    ((sampleA.applyOp ⟨⟨0, 7⟩, Dir.Pos⟩).p = sampleA.p.applyDot ⟨0, 7⟩ ∧
      (sampleA.applyOp ⟨⟨0, 7⟩, Dir.Pos⟩).n = sampleA.n) ∧
    ((sampleA.applyOp ⟨⟨2, 9⟩, Dir.Neg⟩).n = sampleA.n.applyDot ⟨2, 9⟩ ∧
      (sampleA.applyOp ⟨⟨2, 9⟩, Dir.Neg⟩).p = sampleA.p) :=
  ⟨(pncounter_apply_dispatch sampleA ⟨⟨0, 7⟩, Dir.Pos⟩).1 rfl,
   (pncounter_apply_dispatch sampleA ⟨⟨2, 9⟩, Dir.Neg⟩).2 rfl⟩

/-- C9: `value()` wraps — it returns the two's-complement reinterpretation
of `(p.value() - n.value()) mod 2^64`, and this equals the exact
mathematical difference under the precondition that both totals are at most
`2^63 - 1`. -/
theorem pncounter_value_wrapping (s : PNCounter A) :
    s.value = wrap64 ((s.p.value : Int) - (s.n.value : Int)) ∧
      (s.p.value < 2 ^ 63 → s.n.value < 2 ^ 63 →
        s.value = (s.p.value : Int) - (s.n.value : Int)) := by
  constructor
  · exact wrap64_sub_wrap64 _ _
  · intro hp hn
    rw [PNCounter.value, wrap64_sub_wrap64]
    exact wrap64_eq_self (by omega) (by omega)

/-- Witness for C9 at a concrete state within the exactness precondition. -/
theorem pncounter_value_wrapping_witness :
    sampleA.value = wrap64 ((sampleA.p.value : Int) - (sampleA.n.value : Int)) ∧
      sampleA.value = (sampleA.p.value : Int) - (sampleA.n.value : Int) :=
  ⟨(pncounter_value_wrapping sampleA).1,
   (pncounter_value_wrapping sampleA).2 (by decide) (by decide)⟩

/-- C10: the derived `Hash` is structural over the internal `p` and `n`
counters while equality is value-based: there are two well-formed states
that compare equal (`==`) but whose hasher inputs (structural contents)
differ, so hashing is not a congruence for the counter's equality. -/
theorem pncounter_hash_not_congruent :
    ∃ a b : PNCounter Nat, a.WF ∧ b.WF ∧ a.beq b = true ∧
      a.hashInput ≠ b.hashInput :=
  ⟨⟨⟨[(0, 1)]⟩, ⟨[]⟩⟩, ⟨⟨[(1, 1)]⟩, ⟨[]⟩⟩,
    by decide, by decide, by decide, by decide⟩

/-- C2: convergence under arbitrary partitioning — distributing a sequence
of operations across any number of replicas (each operation delivered to at
least one replica, duplicates allowed), applying each replica's share to a
fresh counter and merging all replicas into one counter yields the same
final value as applying the whole sequence to a single fresh counter, hence
a value independent of the distribution and of the merge order. -/
theorem pncounter_merge_converges (ops : List (Op A))
    (replicas : List (List (Op A)))
    (hcov : ∀ op : Op A, (∃ r ∈ replicas, op ∈ r) ↔ op ∈ ops) :
    (mergeList (replicas.map
        fun r => (PNCounter.new : PNCounter A).applyOps r)).value
      = ((PNCounter.new : PNCounter A).applyOps ops).value := by
  have hrep : ∀ s ∈ replicas.map
      (fun r => (PNCounter.new : PNCounter A).applyOps r), s.WF := by
    intro s hs
    rcases List.mem_map.mp hs with ⟨r, _, rfl⟩
    exact (applyOps_new_lookup r).1
  obtain ⟨m1, m2, m3⟩ := mergeList_lookup _ hrep
  obtain ⟨c1, c2, c3⟩ := applyOps_new_lookup (A := A) ops
  have hstate : mergeList (replicas.map
      fun r => (PNCounter.new : PNCounter A).applyOps r)
      = (PNCounter.new : PNCounter A).applyOps ops := by
    refine PNCounter.extComponents (GCounter.extLookup m1.1 c1.1 fun x => ?_)
      (GCounter.extLookup m1.2 c1.2 fun x => ?_)
    · have hmap : (replicas.map
          fun r => (PNCounter.new : PNCounter A).applyOps r).map
            (fun s => lookup0 s.p.entries x)
          = replicas.map fun r => dirMax Dir.Pos r x := by
        rw [List.map_map]
        exact List.map_congr_left fun r _ => (applyOps_new_lookup r).2.1 x
      rw [m2 x, hmap, dirMax_of_cover hcov x, c2 x]
    · have hmap : (replicas.map
          fun r => (PNCounter.new : PNCounter A).applyOps r).map
            (fun s => lookup0 s.n.entries x)
          = replicas.map fun r => dirMax Dir.Neg r x := by
        rw [List.map_map]
        exact List.map_congr_left fun r _ => (applyOps_new_lookup r).2.2 x
      rw [m3 x, hmap, dirMax_of_cover hcov x, c3 x]
  rw [hstate]

/-- Witness for C2: one operation duplicated across two of three replicas
(one replica left empty) converges to the same value as a single replica
applying the sequence once. -/
theorem pncounter_merge_converges_witness :
    (mergeList (([[⟨⟨0, 5⟩, Dir.Pos⟩], [⟨⟨0, 5⟩, Dir.Pos⟩], []] :
          List (List (Op Nat))).map
        fun r => (PNCounter.new : PNCounter Nat).applyOps r)).value
      = ((PNCounter.new : PNCounter Nat).applyOps
          [(⟨⟨0, 5⟩, Dir.Pos⟩ : Op Nat)]).value :=
  pncounter_merge_converges _ _ (by intro op; simp)

/-- C3 (amended): starting from `new()`, sequentially issuing and applying
operations (each applied before the next is issued) from arbitrary actors
yields `value() = i - d`, where `i` is the number of increments and `d` the
number of decrements, provided `i < 2^63` and `d < 2^63` — the bound the
wrapping `as i64` casts force; the 0-increment, 3-decrement scenario gives
`value() = -3` (witness). -/
theorem pncounter_value_correct (l : List (A × Dir))
    (hp : posCount l < 2 ^ 63) (hn : negCount l < 2 ^ 63) :
    ((PNCounter.new : PNCounter A).run l).value
      = (posCount l : Int) - (negCount l : Int) := by
  obtain ⟨w1, w2, w3⟩ := run_values l PNCounter.new PNCounter.wf_new_pn
  have hpv : ((PNCounter.new : PNCounter A).run l).p.value = posCount l := by
    rw [w2]
    show (GCounter.new : GCounter A).value + posCount l = _
    rw [show (GCounter.new : GCounter A).value = 0 from rfl, Nat.zero_add]
  have hnv : ((PNCounter.new : PNCounter A).run l).n.value = negCount l := by
    rw [w3]
    show (GCounter.new : GCounter A).value + negCount l = _
    rw [show (GCounter.new : GCounter A).value = 0 from rfl, Nat.zero_add]
  rw [PNCounter.value, hpv, hnv, wrap64_sub_wrap64]
  exact wrap64_eq_self (by omega) (by omega)

/-- Witness for C3: 0 increments and 3 decrements from one actor give
value -3. -/
theorem pncounter_value_correct_witness :
    ((PNCounter.new : PNCounter Nat).run
        (List.replicate 3 ((0 : Nat), Dir.Neg))).value = -3 := by
  have h := pncounter_value_correct (List.replicate 3 ((0 : Nat), Dir.Neg))
    (by decide) (by decide)
  rw [h]
  decide

/-- Counterexample to C3 as stated: after 2^63 increment operations and 0
decrements, issued and applied sequentially by actor 0, `value()` is not
`2^63 - 0` (the wrapping cast makes it -2^63). -/
theorem pncounter_value_correct_counterexample :
    ¬(((PNCounter.new : PNCounter Nat).run
          (List.replicate (2 ^ 63) ((0 : Nat), Dir.Pos))).value
        = (posCount (List.replicate (2 ^ 63) ((0 : Nat), Dir.Pos)) : Int)
          - (negCount (List.replicate (2 ^ 63) ((0 : Nat), Dir.Pos)) : Int)) := by
  obtain ⟨w1, w2, w3⟩ :=
    run_values (List.replicate (2 ^ 63) ((0 : Nat), Dir.Pos))
      PNCounter.new PNCounter.wf_new_pn
  have hpv : ((PNCounter.new : PNCounter Nat).run
      (List.replicate (2 ^ 63) ((0 : Nat), Dir.Pos))).p.value = 2 ^ 63 := by
    rw [w2, posCount_replicate_pos]
    show (GCounter.new : GCounter Nat).value + 2 ^ 63 = _
    rw [show (GCounter.new : GCounter Nat).value = 0 from rfl, Nat.zero_add]
  have hnv : ((PNCounter.new : PNCounter Nat).run
      (List.replicate (2 ^ 63) ((0 : Nat), Dir.Pos))).n.value = 0 := by
    rw [w3, negCount_replicate_pos]
    rfl
  intro hEq
  rw [PNCounter.value, hpv, hnv, wrap64_sub_wrap64,
    posCount_replicate_pos, negCount_replicate_pos] at hEq
  norm_num [wrap64] at hEq

end RustCrdt
